import Mathlib

/-!
Verification of the `ent` entity-persistence layer (github.com/rsms/ent).

This file gives a shallow embedding, in Lean 4, of the parts of the Go source
that the checked claims are about:

* the index key encoder (`IndexKeyEncoder`, `index.go`), with byte strings
  modelled as `List Nat` (each element a byte value `< 256`);
* the index diff engine (`ComputeIndexEdits`);
* the id-set codec (`ParseIdSet` / `IdSet.Encode`, `idset.go`);
* the in-memory storage backend (`mem/storage.go`: `EntStorage.putEnt`,
  `DeleteEnt`, `indexGet`, `FindEntIdsByIndex`) together with the scoped
  copy-on-write map (`mem/scopedmap.go`) and the `CreateEnt`/`SaveEnt`
  entity-level wrappers.

Machine integers are modelled as `Nat` with explicit `% 2^w` where Go
truncates.  Fallible Go functions return `Except`/`Option`; a Go `panic` is
modelled as `Option.none`.
-/

namespace Ent

/-! ## Byte-level helpers

Go byte strings (`[]byte`, and `string` which Go compares byte-wise) are
modelled as `List Nat`, every element a byte value.  `lexLeBytes` is
byte-lexicographic `≤`, the order Go's `bytes.Compare` induces. -/

/-- Byte-lexicographic `≤` on byte strings (Go `bytes.Compare(a, b) <= 0`). -/
def lexLeBytes : List Nat → List Nat → Bool
  | [], _ => true
  | _ :: _, [] => false
  | a :: as, b :: bs =>
    if a < b then true
    else if b < a then false
    else lexLeBytes as bs

/-- Head-wise decomposition of `lexLeBytes` on two nonempty byte strings. -/
theorem lexLeBytes_cons_iff {x y : Nat} {xs ys : List Nat} :
    lexLeBytes (x :: xs) (y :: ys) = true ↔
      x < y ∨ (x = y ∧ lexLeBytes xs ys = true) := by
  simp only [lexLeBytes]
  rcases Nat.lt_trichotomy x y with h | h | h
  · simp [h]
  · simp [h, Nat.lt_irrefl]
  · simp [h, Nat.lt_asymm h, Nat.ne_of_gt h, fun hlt => Nat.lt_asymm h hlt]

theorem lexLeBytes_total (a b : List Nat) :
    lexLeBytes a b = true ∨ lexLeBytes b a = true := by
  induction a generalizing b with
  | nil => exact Or.inl rfl
  | cons x xs ih =>
    cases b with
    | nil => exact Or.inr rfl
    | cons y ys =>
      rcases Nat.lt_trichotomy x y with h | h | h
      · exact Or.inl (lexLeBytes_cons_iff.mpr (Or.inl h))
      · subst h
        rcases ih ys with h | h
        · exact Or.inl (lexLeBytes_cons_iff.mpr (Or.inr ⟨rfl, h⟩))
        · exact Or.inr (lexLeBytes_cons_iff.mpr (Or.inr ⟨rfl, h⟩))
      · exact Or.inr (lexLeBytes_cons_iff.mpr (Or.inl h))

theorem lexLeBytes_trans : ∀ {a b c : List Nat},
    lexLeBytes a b = true → lexLeBytes b c = true → lexLeBytes a c = true
  | [], _, _, _, _ => rfl
  | _ :: _, [], _, h₁, _ => by simp [lexLeBytes] at h₁
  | _ :: _, _ :: _, [], _, h₂ => by simp [lexLeBytes] at h₂
  | x :: xs, y :: ys, z :: zs, h₁, h₂ => by
    rcases lexLeBytes_cons_iff.mp h₁ with hxy | ⟨hxy, hxs⟩ <;>
      rcases lexLeBytes_cons_iff.mp h₂ with hyz | ⟨hyz, hys⟩
    · exact lexLeBytes_cons_iff.mpr (Or.inl (Nat.lt_trans hxy hyz))
    · exact lexLeBytes_cons_iff.mpr (Or.inl (hyz ▸ hxy))
    · exact lexLeBytes_cons_iff.mpr (Or.inl (hxy ▸ hyz))
    · exact lexLeBytes_cons_iff.mpr (Or.inr ⟨hxy.trans hyz, lexLeBytes_trans hxs hys⟩)

theorem lexLeBytes_antisymm : ∀ {a b : List Nat},
    lexLeBytes a b = true → lexLeBytes b a = true → a = b
  | [], [], _, _ => rfl
  | [], _ :: _, _, h₂ => by simp [lexLeBytes] at h₂
  | _ :: _, [], h₁, _ => by simp [lexLeBytes] at h₁
  | x :: xs, y :: ys, h₁, h₂ => by
    rcases lexLeBytes_cons_iff.mp h₁ with hxy | ⟨hxy, hxs⟩ <;>
      rcases lexLeBytes_cons_iff.mp h₂ with hyx | ⟨hyx, hys⟩
    · exact absurd hyx (Nat.lt_asymm hxy)
    · exact absurd hyx.symm (Nat.ne_of_lt hxy)
    · exact absurd hxy.symm (Nat.ne_of_lt hyx)
    · rw [hxy, lexLeBytes_antisymm hxs hys]

/-! ## Big-endian scalar encoding (`index.go`: `writeUint64BE` and friends)

`writeUint64BE` in the source stores `byte(v >> 56), byte(v >> 48), …,
byte(v)`; `byte(_)` keeps the low 8 bits, i.e. `% 256`. -/

/-- `writeUint16BE` (`index.go`): 2-byte big-endian image of `v`. -/
def writeUint16BE (v : Nat) : List Nat := [v / 2 ^ 8 % 256, v % 256]

/-- `writeUint32BE` (`index.go`): 4-byte big-endian image of `v`. -/
def writeUint32BE (v : Nat) : List Nat :=
  [v / 2 ^ 24 % 256, v / 2 ^ 16 % 256, v / 2 ^ 8 % 256, v % 256]

/-- `writeUint64BE` (`index.go`): 8-byte big-endian image of `v`. -/
def writeUint64BE (v : Nat) : List Nat :=
  [v / 2 ^ 56 % 256, v / 2 ^ 48 % 256, v / 2 ^ 40 % 256, v / 2 ^ 32 % 256,
   v / 2 ^ 24 % 256, v / 2 ^ 16 % 256, v / 2 ^ 8 % 256, v % 256]

/-- `IndexKeyEncoder.Uint`, single-field branch (`nfields == 1 && nest == 0`):
the scalar is written directly to the output buffer, width selected by
`bitsize`; Go's `uint8(v)`/`uint16(v)`/`uint32(v)` conversions truncate,
hence the `% 2^w`.  Any `bitsize` other than 8/16/32 falls to the 64-bit
case (`default:` in the source `switch`). -/
def uintKeyBytes (bitsize v : Nat) : List Nat :=
  match bitsize with
  | 8 => [v % 256]
  | 16 => writeUint16BE (v % 2 ^ 16)
  | 32 => writeUint32BE (v % 2 ^ 32)
  | _ => writeUint64BE v

/-- Reference big-endian byte image: `n` bytes, most significant first. -/
def bytesBE : Nat → Nat → List Nat
  | 0, _ => []
  | n + 1, v => v / 256 ^ n % 256 :: bytesBE n (v % 256 ^ n)

theorem bytesBE_length (n v : Nat) : (bytesBE n v).length = n := by
  induction n generalizing v with
  | zero => rfl
  | succ n ih => simp [bytesBE, ih]

theorem div_lt_of_div_lt_div {K a b : Nat} (h : a / K < b / K) : a < b := by
  by_contra hab
  exact absurd (Nat.div_le_div_right (Nat.le_of_not_lt hab)) (Nat.not_le.mpr h)

/-- Big-endian images of same width compare byte-lexicographically exactly
as the encoded numbers compare numerically. -/
theorem lexLeBytes_bytesBE :
    ∀ n a b, a < 256 ^ n → b < 256 ^ n →
      (lexLeBytes (bytesBE n a) (bytesBE n b) = true ↔ a ≤ b) := by
  intro n
  induction n with
  | zero =>
    intro a b ha hb
    simp only [pow_zero, Nat.lt_one_iff] at ha hb
    subst ha; subst hb
    simp [bytesBE, lexLeBytes]
  | succ n ih =>
    intro a b ha hb
    have hpos : 0 < (256 : Nat) ^ n := Nat.pos_pow_of_pos n (by norm_num)
    have hqa : a / 256 ^ n < 256 := by
      rw [Nat.div_lt_iff_lt_mul hpos]
      calc a < 256 ^ (n + 1) := ha
        _ = 256 * 256 ^ n := by ring
    have hqb : b / 256 ^ n < 256 := by
      rw [Nat.div_lt_iff_lt_mul hpos]
      calc b < 256 ^ (n + 1) := hb
        _ = 256 * 256 ^ n := by ring
    simp only [bytesBE, Nat.mod_eq_of_lt hqa, Nat.mod_eq_of_lt hqb, lexLeBytes_cons_iff]
    constructor
    · rintro (h | ⟨hq, ht⟩)
      · exact Nat.le_of_lt (div_lt_of_div_lt_div h)
      · have ht' := (ih _ _ (Nat.mod_lt _ hpos) (Nat.mod_lt _ hpos)).mp ht
        have ea := (Nat.div_add_mod a (256 ^ n)).symm
        have eb := (Nat.div_add_mod b (256 ^ n)).symm
        calc a = 256 ^ n * (a / 256 ^ n) + a % 256 ^ n := ea
          _ = 256 ^ n * (b / 256 ^ n) + a % 256 ^ n := by rw [hq]
          _ ≤ 256 ^ n * (b / 256 ^ n) + b % 256 ^ n := Nat.add_le_add_left ht' _
          _ = b := Nat.div_add_mod b (256 ^ n)
    · intro hab
      rcases Nat.lt_trichotomy (a / 256 ^ n) (b / 256 ^ n) with h | h | h
      · exact Or.inl h
      · right
        refine ⟨h, (ih _ _ (Nat.mod_lt _ hpos) (Nat.mod_lt _ hpos)).mpr ?_⟩
        have ea := (Nat.div_add_mod a (256 ^ n)).symm
        have eb := (Nat.div_add_mod b (256 ^ n)).symm
        have : 256 ^ n * (a / 256 ^ n) + a % 256 ^ n ≤
            256 ^ n * (a / 256 ^ n) + b % 256 ^ n := by
          calc 256 ^ n * (a / 256 ^ n) + a % 256 ^ n = a := Nat.div_add_mod a (256 ^ n)
            _ ≤ b := hab
            _ = 256 ^ n * (b / 256 ^ n) + b % 256 ^ n := eb
            _ = 256 ^ n * (a / 256 ^ n) + b % 256 ^ n := by rw [h]
        exact Nat.le_of_add_le_add_left this
      · exact absurd (div_lt_of_div_lt_div h) (Nat.not_lt.mpr hab)

theorem uintKeyBytes_eq_bytesBE_8 (v : Nat) :
    uintKeyBytes 8 v = bytesBE 1 (v % 2 ^ 8) := by
  simp only [uintKeyBytes, bytesBE]
  norm_num

theorem uintKeyBytes_eq_bytesBE_16 (v : Nat) :
    uintKeyBytes 16 v = bytesBE 2 (v % 2 ^ 16) := by
  simp only [uintKeyBytes, writeUint16BE, bytesBE, List.cons.injEq, and_true]
  norm_num

theorem uintKeyBytes_eq_bytesBE_32 (v : Nat) :
    uintKeyBytes 32 v = bytesBE 4 (v % 2 ^ 32) := by
  simp only [uintKeyBytes, writeUint32BE, bytesBE, List.cons.injEq, and_true]
  norm_num
  all_goals omega

theorem uintKeyBytes_eq_bytesBE_64 (v : Nat) :
    uintKeyBytes 64 v = bytesBE 8 v := by
  simp only [uintKeyBytes, writeUint64BE, bytesBE, List.cons.injEq, and_true]
  norm_num
  all_goals omega

/-- C8: single-field index-key order preservation for unsigned values.  For
every bit width `w ∈ {8,16,32,64}` and all unsigned values `a, b < 2^w`, the
`nfields == 1` encoding (`IndexKeyEncoder.Uint`) produces fixed-width
`w/8`-byte big-endian output, and `a ≤ b` iff the encoding of `a` is
byte-lexicographically `≤` the encoding of `b`. -/
theorem uintKey_order_preserving (w a b : Nat)
    (hw : w = 8 ∨ w = 16 ∨ w = 32 ∨ w = 64)
    (ha : a < 2 ^ w) (hb : b < 2 ^ w) :
    (uintKeyBytes w a).length = w / 8 ∧
    (a ≤ b ↔ lexLeBytes (uintKeyBytes w a) (uintKeyBytes w b) = true) := by
  rcases hw with hw | hw | hw | hw <;> subst hw
  · rw [uintKeyBytes_eq_bytesBE_8, uintKeyBytes_eq_bytesBE_8,
      Nat.mod_eq_of_lt ha, Nat.mod_eq_of_lt hb]
    exact ⟨bytesBE_length 1 a,
      (lexLeBytes_bytesBE 1 a b (by simpa using ha) (by simpa using hb)).symm⟩
  · rw [uintKeyBytes_eq_bytesBE_16, uintKeyBytes_eq_bytesBE_16,
      Nat.mod_eq_of_lt ha, Nat.mod_eq_of_lt hb]
    exact ⟨bytesBE_length 2 a,
      (lexLeBytes_bytesBE 2 a b (by norm_num at ha ⊢; omega)
        (by norm_num at hb ⊢; omega)).symm⟩
  · rw [uintKeyBytes_eq_bytesBE_32, uintKeyBytes_eq_bytesBE_32,
      Nat.mod_eq_of_lt ha, Nat.mod_eq_of_lt hb]
    exact ⟨bytesBE_length 4 a,
      (lexLeBytes_bytesBE 4 a b (by norm_num at ha ⊢; omega)
        (by norm_num at hb ⊢; omega)).symm⟩
  · rw [uintKeyBytes_eq_bytesBE_64, uintKeyBytes_eq_bytesBE_64]
    exact ⟨bytesBE_length 8 a,
      (lexLeBytes_bytesBE 8 a b (by norm_num at ha ⊢; omega)
        (by norm_num at hb ⊢; omega)).symm⟩

/-- Witness for C8 at `w = 16`, `a = 5`, `b = 300`. -/
theorem uintKey_order_preserving_witness :
    (uintKeyBytes 16 5).length = 16 / 8 ∧
    (5 ≤ 300 ↔ lexLeBytes (uintKeyBytes 16 5) (uintKeyBytes 16 300) = true) :=
  uintKey_order_preserving 16 5 300 (Or.inr (Or.inl rfl))
    (by norm_num) (by norm_num)

/-! ## Id sets (`idset.go`)

`ParseIdSet` splits its input on single space bytes (`bytes.Split`) and runs
Go's `strconv.ParseUint(chunk, 10, 64)` on every chunk, `panic`king on any
parse error.  The `panic` is modelled as `Option.none`.  `parseUintLoop`
mirrors the digit loop of `strconv.ParseUint` for base 10 / bit size 64:
`cutoff = (2^64-1)/10 + 1` and `maxVal = 2^64 - 1`. -/

/-- Digit-accumulation loop of Go `strconv.ParseUint(s, 10, 64)`. -/
def parseUintLoop : List Nat → Nat → Option Nat
  | [], n => some n
  | c :: cs, n =>
    if c < 48 ∨ 57 < c then none
    else if 1844674407370955162 ≤ n then none
    else if 18446744073709551615 < n * 10 + (c - 48) then none
    else parseUintLoop cs (n * 10 + (c - 48))

/-- Go `strconv.ParseUint(s, 10, 64)`: empty input is a syntax error. -/
def parseUint (s : List Nat) : Option Nat :=
  if s = [] then none else parseUintLoop s 0

/-- Decimal value of a digit string, starting from accumulator `n`
(specification-side, no overflow checks). -/
def decValFrom (n : Nat) (cs : List Nat) : Nat :=
  cs.foldl (fun a c => a * 10 + (c - 48)) n

/-- Decimal value of a digit string (specification-side). -/
def decVal (cs : List Nat) : Nat := decValFrom 0 cs

/-- A byte chunk that Go `strconv.ParseUint(_, 10, 64)` accepts: nonempty,
all ASCII digits, value below `2^64`. -/
def ValidChunk (c : List Nat) : Prop :=
  c ≠ [] ∧ (∀ b ∈ c, 48 ≤ b ∧ b ≤ 57) ∧ decVal c < 2 ^ 64

instance : DecidablePred ValidChunk := fun c => by
  unfold ValidChunk; infer_instance

theorem le_decValFrom (cs : List Nat) : ∀ n, n ≤ decValFrom n cs := by
  induction cs with
  | nil => intro n; exact Nat.le_refl n
  | cons c cs ih =>
    intro n
    calc n ≤ n * 10 + (c - 48) := by omega
      _ ≤ decValFrom (n * 10 + (c - 48)) cs := ih _

theorem parseUintLoop_spec (cs : List Nat) :
    ∀ n, n < 2 ^ 64 →
      parseUintLoop cs n =
        if (∀ b ∈ cs, 48 ≤ b ∧ b ≤ 57) ∧ decValFrom n cs < 2 ^ 64
        then some (decValFrom n cs) else none := by
  induction cs with
  | nil =>
    intro n hn
    rw [if_pos ⟨by simp, by simpa [decValFrom] using hn⟩]
    rfl
  | cons c cs ih =>
    intro n hn
    have hstep : decValFrom n (c :: cs) = decValFrom (n * 10 + (c - 48)) cs := rfl
    by_cases hd : c < 48 ∨ 57 < c
    · rw [parseUintLoop, if_pos hd, if_neg]
      rintro ⟨hall, -⟩
      have := hall c (by simp)
      omega
    · have hd' : 48 ≤ c ∧ c ≤ 57 := by omega
      by_cases hcut : 1844674407370955162 ≤ n
      · rw [parseUintLoop, if_neg hd, if_pos hcut, if_neg]
        rintro ⟨-, hv⟩
        have h1 : n * 10 + (c - 48) ≤ decValFrom n (c :: cs) :=
          hstep ▸ le_decValFrom cs _
        omega
      · by_cases hov : 18446744073709551615 < n * 10 + (c - 48)
        · rw [parseUintLoop, if_neg hd, if_neg hcut, if_pos hov, if_neg]
          rintro ⟨-, hv⟩
          have h1 : n * 10 + (c - 48) ≤ decValFrom n (c :: cs) :=
            hstep ▸ le_decValFrom cs _
          omega
        · rw [parseUintLoop, if_neg hd, if_neg hcut, if_neg hov,
            ih (n * 10 + (c - 48)) (by omega), hstep]
          by_cases hrest : (∀ b ∈ cs, 48 ≤ b ∧ b ≤ 57) ∧
              decValFrom (n * 10 + (c - 48)) cs < 2 ^ 64
          · rw [if_pos hrest, if_pos]
            exact ⟨by simpa [hd'] using hrest.1, hrest.2⟩
          · rw [if_neg hrest, if_neg]
            rintro ⟨hall, hv⟩
            exact hrest ⟨fun b hb => hall b (by simp [hb]), hv⟩

theorem parseUint_spec (c : List Nat) :
    parseUint c = if ValidChunk c then some (decVal c) else none := by
  unfold parseUint
  by_cases hc : c = []
  · rw [if_pos hc, if_neg]
    rintro ⟨hne, -⟩
    exact hne hc
  · rw [if_neg hc, parseUintLoop_spec c 0 (by norm_num)]
    unfold ValidChunk decVal
    by_cases h : (∀ b ∈ c, 48 ≤ b ∧ b ≤ 57) ∧ decValFrom 0 c < 2 ^ 64
    · rw [if_pos h, if_pos ⟨hc, h⟩]
    · rw [if_neg h, if_neg (fun hh => h ⟨hh.2.1, hh.2.2⟩)]

/-- The per-chunk loop of `ParseIdSet`: parse every chunk, abort (panic) on
the first failure, collect the values in input order. -/
def parseChunks : List (List Nat) → Option (List Nat)
  | [] => some []
  | c :: cs =>
    match parseUint c with
    | none => none
    | some u =>
      match parseChunks cs with
      | none => none
      | some us => some (u :: us)

/-- `ParseIdSet` (`idset.go`): empty input yields the empty id set; otherwise
the input is split on the space byte (`bytes.Split(data, []byte{' '})`) and
every chunk must parse as a base-10 `uint64`; a chunk that does not parse
makes the function `panic` (modelled `none`). -/
def ParseIdSet (data : List Nat) : Option (List Nat) :=
  if data = [] then some [] else parseChunks (data.splitOn 32)

theorem parseChunks_spec (chunks : List (List Nat)) :
    parseChunks chunks =
      if ∀ c ∈ chunks, ValidChunk c then some (chunks.map decVal) else none := by
  induction chunks with
  | nil => simp [parseChunks]
  | cons c cs ih =>
    rw [parseChunks, parseUint_spec]
    by_cases hc : ValidChunk c
    · rw [if_pos hc]
      simp only [ih]
      by_cases hcs : ∀ x ∈ cs, ValidChunk x
      · rw [if_pos hcs, if_pos (by simpa [hc] using hcs)]
        rfl
      · rw [if_neg hcs, if_neg (fun h => hcs fun x hx => h x (by simp [hx]))]
    · rw [if_neg hc, if_neg (fun h => hc (h c (by simp)))]

/-- C10: `ParseIdSet` on a byte string whose space-separated chunks are all
decimal `uint64`s returns exactly those values in order; on empty input it
returns the empty set; on any other nonempty input (empty chunk from
consecutive spaces, a non-digit byte, an out-of-range value) it panics
(modelled as `none`) instead of returning an error. -/
theorem parseIdSet_spec (data : List Nat) :
    (data = [] → ParseIdSet data = some []) ∧
    (data ≠ [] → (∀ c ∈ data.splitOn 32, ValidChunk c) →
      ParseIdSet data = some ((data.splitOn 32).map decVal)) ∧
    (data ≠ [] → ¬ (∀ c ∈ data.splitOn 32, ValidChunk c) →
      ParseIdSet data = none) := by
  refine ⟨fun hd => ?_, fun hd hv => ?_, fun hd hv => ?_⟩
  · rw [ParseIdSet, if_pos hd]
  · rw [ParseIdSet, if_neg hd, parseChunks_spec, if_pos hv]
  · rw [ParseIdSet, if_neg hd, parseChunks_spec, if_neg hv]

/-- Witness for C10: the blob `"12 3"` parses to ids `[12, 3]` in order. -/
theorem parseIdSet_spec_witness :
    ParseIdSet [49, 50, 32, 51] = some [12, 3] := by
  have h := (parseIdSet_spec [49, 50, 32, 51]).2.1 (by decide) (by decide)
  rw [h]
  decide

/-! ## Errors (`ent.go` taxonomy)

The sentinel error values of the package, plus the `fmt.Errorf` cases of the
index pipeline.  `uniqueConflict` carries the ent type name and index name
(`"unique index conflict %s.%s with ent #%d"` in `mem/storage.go`). -/

inductive Err where
  | notFound
  | versionConflict
  | notChanged
  | noStorage
  | uniqueConflict (entTypeName indexName : String)
  | typeMismatch (prevName nextName : String)
  | encoding (msg : String)
  | panicIdSet
deriving DecidableEq, Repr

/-- `bits.PopcountUint64` / `FieldSet.Len`: number of set bits.  Structural
fuel recursion (`n` itself bounds the number of binary digits) so that the
kernel can evaluate it. -/
def popCountFuel : Nat → Nat → Nat
  | 0, _ => 0
  | fuel + 1, n => if n = 0 then 0 else n % 2 + popCountFuel fuel (n / 2)

def popCount (n : Nat) : Nat := popCountFuel n n

/-- One base-36 digit as Go `strconv.FormatUint` renders it (`0-9a-z`). -/
def base36Digit (d : Nat) : Nat := if d < 10 then 48 + d else 87 + d

/-- Base-36 digit string of `n` (most significant first), fuel recursion. -/
def base36Fuel : Nat → Nat → List Nat → List Nat
  | 0, _, acc => acc
  | fuel + 1, n, acc =>
    if n = 0 then acc else base36Fuel fuel (n / 36) (base36Digit (n % 36) :: acc)

/-- Go `strconv.FormatUint(v, 36)` as a byte string. -/
def natToBase36 (v : Nat) : List Nat :=
  if v = 0 then [48] else base36Fuel v v []

/-! ## Entity model

The code generator (`entgen`) derives, per ent type, an ordered field list,
the index descriptors and the `EntEncode`/`EntDecodePartial` glue.  The
claims quantify over those generated artifacts, so the model carries them as
data: an `EntType` holds the storage field names (byte strings, in field
index order) and the `EntIndex` list; an `EntData` holds the type plus one
`FieldVal` per field.  Field values cover the scalar kinds the claims touch
(strings, blobs, unsigned ints, bools); `Int` delegates to `Uint` in the
source and floats are not needed by any claim. -/

inductive FieldVal where
  | str (s : List Nat)
  | blob (b : List Nat)
  | uint (bitsize v : Nat)
  | boolv (b : Bool)
deriving DecidableEq, Repr

/-- `EntIndex` metadata: name, participating-field bitset (`FieldSet`),
uniqueness flag (`Flags & EntIndexUnique`). -/
structure EntIndex where
  name : String
  fields : Nat
  unique : Bool
deriving DecidableEq, Repr

structure EntType where
  name : String
  fieldNames : List (List Nat)
  indexes : List EntIndex
deriving DecidableEq, Repr

/-- `Fields.Fieldmap`: bitmap with every declared field bit set. -/
def EntType.fieldmap (t : EntType) : Nat := 2 ^ t.fieldNames.length - 1

structure EntData where
  type : EntType
  vals : List FieldVal
deriving DecidableEq, Repr

/-! ## Index key encoder (`IndexKeyEncoder`, `index.go`) -/

structure IndexKeyEncoder where
  b : List Nat
  err : Option String
  nest : Nat
  nfields : Nat
  keys : List (List Nat)
  values : List (List Nat)
deriving DecidableEq, Repr

namespace IndexKeyEncoder

/-- `Reset(nfields)`: clears buffer, keys, values and nesting (the sticky
error is not cleared by `Reset` in the source). -/
def reset (c : IndexKeyEncoder) (nfields : Nat) : IndexKeyEncoder :=
  { c with nfields := nfields, b := [], keys := [], values := [], nest := 0 }

def setErr (c : IndexKeyEncoder) (msg : String) : IndexKeyEncoder :=
  match c.err with
  | some _ => c
  | none => { c with err := some msg }

/-- Pair order used by `keysValuesSort`: compare the key names byte-wise. -/
def pairLe (p q : List Nat × List Nat) : Prop := lexLeBytes p.1 q.1 = true

instance : DecidableRel pairLe := fun p q => by unfold pairLe; infer_instance

instance : IsTotal (List Nat × List Nat) pairLe :=
  ⟨fun p q => lexLeBytes_total p.1 q.1⟩

instance : IsTrans (List Nat × List Nat) pairLe :=
  ⟨fun _ _ _ h₁ h₂ => lexLeBytes_trans h₁ h₂⟩

/-- The compound-key image of a list of (field-name, token) pairs
(`IndexKeyEncoder.flush`, multi-pair branch): sort the pairs by field name
(`sort.Sort(keysValuesSort)`), then emit
`name1 0xFF value1 0xFF name2 0xFF value2 …`. -/
def compoundKeyBytes (ps : List (List Nat × List Nat)) : List Nat :=
  List.intercalate [255] ((ps.insertionSort pairLe).map fun p => p.1 ++ 255 :: p.2)

/-- `flush`: runs at `EndEnt` when `nfields > 1`; a single collected value is
written bare, two or more are paired with the collected keys, sorted and
joined with `0xFF` separators. -/
def flush (c : IndexKeyEncoder) : IndexKeyEncoder :=
  match c.values with
  | [] => c
  | [v] => { c with b := c.b ++ v }
  | _ :: _ :: _ =>
    if c.keys.length ≠ c.values.length then
      c.setErr "unbalanced key-value"
    else
      { c with b := c.b ++ compoundKeyBytes (c.keys.zip c.values) }

def endEnt (c : IndexKeyEncoder) : IndexKeyEncoder :=
  if c.nfields > 1 ∧ c.err = none then c.flush else c

/-- `Key(k)`: at top level, compound mode collects the field name; single
mode ignores it.  (Inside a nested list/dict the source writes `k` and `':'`
to the buffer; nesting always carries a sticky error already.) -/
def key (c : IndexKeyEncoder) (k : List Nat) : IndexKeyEncoder :=
  if c.nest = 0 then
    if c.nfields > 1 then { c with keys := c.keys ++ [k] } else c
  else
    { c with b := c.b ++ k ++ [58] }

/-- `Str(v)`: single mode writes the raw bytes; compound mode collects the
token with every `0xFF` byte escaped to the four bytes `\xff`. -/
def strVal (c : IndexKeyEncoder) (v : List Nat) : IndexKeyEncoder :=
  if c.nfields = 1 ∧ c.nest = 0 then { c with b := c.b ++ v }
  else
    { c with values := c.values ++
        [v.flatMap fun x => if x = 255 then [92, 120, 102, 102] else [x]] }

/-- `Blob(v)`: single mode writes the raw bytes; otherwise an error. -/
def blobVal (c : IndexKeyEncoder) (v : List Nat) : IndexKeyEncoder :=
  if c.nfields = 1 ∧ c.nest = 0 then { c with b := c.b ++ v }
  else c.setErr "cannot index nested blobs"

/-- `Uint(v, bitsize)`: single mode writes the fixed-width big-endian form;
compound mode collects the base-36 token. -/
def uintVal (c : IndexKeyEncoder) (v bitsize : Nat) : IndexKeyEncoder :=
  if c.nfields = 1 ∧ c.nest = 0 then { c with b := c.b ++ uintKeyBytes bitsize v }
  else { c with values := c.values ++ [natToBase36 v] }

/-- `Bool(v)`: single mode writes one byte `0`/`1`; compound mode collects
the ASCII token `"0"`/`"1"`. -/
def boolVal (c : IndexKeyEncoder) (v : Bool) : IndexKeyEncoder :=
  if c.nfields = 1 ∧ c.nest = 0 then { c with b := c.b ++ [if v then 1 else 0] }
  else { c with values := c.values ++ [[if v then 49 else 48]] }

/-- Dispatch of one field value to the encoder (the per-field calls the
generated `EntEncode` makes). -/
def encVal (c : IndexKeyEncoder) (v : FieldVal) : IndexKeyEncoder :=
  match v with
  | .str s => c.strVal s
  | .blob b => c.blobVal b
  | .uint bitsize v => c.uintVal v bitsize
  | .boolv b => c.boolVal b

end IndexKeyEncoder

/-- Generated `EntEncode(c, fieldmap)`: for each declared field whose bit is
set in `fieldmap`, in field-index order, emit `c.Key(name)` then the scalar
value. -/
def entEncode (c : IndexKeyEncoder) (e : EntData) (fieldmap : Nat) : IndexKeyEncoder :=
  ((e.type.fieldNames.zip e.vals).enum).foldl
    (fun c p =>
      if Nat.testBit fieldmap p.1 then (c.key p.2.1).encVal p.2.2 else c)
    c

/-- `IndexKeyEncoder.EncodeKey(e, fields)` (`index.go`): reset to
`popcount(fields)` fields, drive the generated encode routine restricted to
`fields`, flush, and return the buffer or the sticky error. -/
def encodeKey (e : EntData) (fields : Nat) : Except Err (List Nat) :=
  let c : IndexKeyEncoder := ⟨[], none, 0, 0, [], []⟩
  let c := c.reset (popCount fields)
  let c := entEncode c e fields
  let c := c.endEnt
  match c.err with
  | none => .ok c.b
  | some m => .error (.encoding m)

/-! ## C7: compound index-key determinism -/

/-- Strict variant of the pair order: `≤` on names together with distinct
names. -/
def pairLt (p q : List Nat × List Nat) : Prop :=
  IndexKeyEncoder.pairLe p q ∧ p.1 ≠ q.1

instance : IsAntisymm (List Nat × List Nat) pairLt :=
  ⟨fun _ _ h₁ h₂ => absurd (lexLeBytes_antisymm h₁.1 h₂.1) h₁.2⟩

/-- Two name-sorted pair lists that are permutations of each other and have
pairwise-distinct names are equal. -/
theorem sorted_pairs_unique {l₁ l₂ : List (List Nat × List Nat)}
    (hp : l₁.Perm l₂)
    (h₁ : l₁.Sorted IndexKeyEncoder.pairLe) (h₂ : l₂.Sorted IndexKeyEncoder.pairLe)
    (hn : (l₁.map Prod.fst).Nodup) : l₁ = l₂ := by
  have hn₂ : (l₂.map Prod.fst).Nodup := ((hp.map Prod.fst).nodup_iff).mp hn
  have hne₁ : l₁.Pairwise fun p q => p.1 ≠ q.1 := List.pairwise_map.mp hn
  have hne₂ : l₂.Pairwise fun p q => p.1 ≠ q.1 := List.pairwise_map.mp hn₂
  have h₁' : l₁.Sorted pairLt := (h₁.and hne₁).imp fun h => ⟨h.1, h.2⟩
  have h₂' : l₂.Sorted pairLt := (h₂.and hne₂).imp fun h => ⟨h.1, h.2⟩
  exact List.eq_of_perm_of_sorted hp h₁' h₂'

/-- C7: compound index-key determinism.  For a compound key (`nfields > 1`)
built from (field-name, token) pairs with pairwise-distinct names, encoding
the same pairs in any permutation of input order produces byte-identical
output, namely the pairs sorted by field name and concatenated with the
`0xFF` separator as `name1 0xFF value1 0xFF name2 0xFF value2`. -/
theorem compoundKey_deterministic (ps qs : List (List Nat × List Nat))
    (hperm : ps.Perm qs) (hnodup : (ps.map Prod.fst).Nodup)
    (_hlen : 1 < ps.length) :
    IndexKeyEncoder.compoundKeyBytes ps = IndexKeyEncoder.compoundKeyBytes qs ∧
    ∀ rs, ps.Perm rs → rs.Sorted IndexKeyEncoder.pairLe →
      IndexKeyEncoder.compoundKeyBytes ps =
        List.intercalate [255] (rs.map fun p => p.1 ++ 255 :: p.2) := by
  have hsp : (ps.insertionSort IndexKeyEncoder.pairLe).Perm ps :=
    List.perm_insertionSort _ _
  have hsq : (qs.insertionSort IndexKeyEncoder.pairLe).Perm qs :=
    List.perm_insertionSort _ _
  have hsort_p : (ps.insertionSort IndexKeyEncoder.pairLe).Sorted IndexKeyEncoder.pairLe :=
    List.sorted_insertionSort _ _
  have hsort_q : (qs.insertionSort IndexKeyEncoder.pairLe).Sorted IndexKeyEncoder.pairLe :=
    List.sorted_insertionSort _ _
  have hnsp : ((ps.insertionSort IndexKeyEncoder.pairLe).map Prod.fst).Nodup :=
    ((hsp.map Prod.fst).nodup_iff).mpr hnodup
  constructor
  · have heq : ps.insertionSort IndexKeyEncoder.pairLe =
        qs.insertionSort IndexKeyEncoder.pairLe :=
      sorted_pairs_unique (hsp.trans (hperm.trans hsq.symm)) hsort_p hsort_q hnsp
    unfold IndexKeyEncoder.compoundKeyBytes
    rw [heq]
  · intro rs hrs hrsorted
    have heq : ps.insertionSort IndexKeyEncoder.pairLe = rs :=
      sorted_pairs_unique (hsp.trans hrs) hsort_p hrsorted hnsp
    unfold IndexKeyEncoder.compoundKeyBytes
    rw [heq]

/-- Witness for C7: the pairs `(b,1)`, `(a,2)` in either order encode to
`a 0xFF 2 0xFF b 0xFF 1`. -/
theorem compoundKey_deterministic_witness :
    IndexKeyEncoder.compoundKeyBytes [([98], [49]), ([97], [50])] =
      [97, 255, 50, 255, 98, 255, 49] := by
  have h := (compoundKey_deterministic [([98], [49]), ([97], [50])]
    [([97], [50]), ([98], [49])] (by decide) (by decide) (by decide)).2
    [([97], [50]), ([98], [49])] (by decide) (by decide)
  rw [h]
  decide

/-! ## Index diff engine (`ComputeIndexEdits`) -/

/-- `StorageIndexEdit`: one computed index mutation. -/
structure StorageIndexEdit where
  index : EntIndex
  key : List Nat
  value : List Nat
  isCleanup : Bool
deriving DecidableEq, Repr

/-- `IdSet.Add` (`idset.go`): append unless already present. -/
def idSetAdd (s : List Nat) (id : Nat) : List Nat :=
  if id ∈ s then s else s ++ [id]

/-- `IdSet.Del` (`idset.go`): splice out the first occurrence. -/
def idSetDel (s : List Nat) (id : Nat) : List Nat := s.erase id

/-- `IndexGetter`: look up the current posting set of one index entry. -/
abbrev IndexGetter : Type :=
  String → String → List Nat → Except Err (List Nat)

/-- The "remove old entry" step of the per-index loop body: when the
previous key is nonempty, fetch the current postings (skipped when
`indexGet` is nil, leaving `ids = nil`), and emit one cleanup edit —
with empty value (whole-key delete) for unique indexes or singleton sets,
otherwise with `id` removed from the fetched set.  When `indexGet` is
non-nil and the fetched set is empty, no cleanup edit is emitted. -/
def cleanupEditsFor (indexGet : Option IndexGetter) (entTypeName : String)
    (id : Nat) (x : EntIndex) (prevKey : List Nat) :
    Except Err (List StorageIndexEdit) :=
  if prevKey = [] then .ok []
  else
    match indexGet with
    | none => .ok [⟨x, prevKey, [], true⟩]
    | some g =>
      match g entTypeName x.name prevKey with
      | .error er => .error er
      | .ok ids =>
        if 0 < ids.length then
          .ok [⟨x, prevKey,
            if x.unique ∨ ids.length = 1 then [] else idSetDel ids id, true⟩]
        else .ok []

/-- The "add new entry" step: when the next key is nonempty, a unique index
gets the singleton `{id}` (no lookup), a non-unique index gets the fetched
postings with `id` added. -/
def insertEditsFor (indexGet : Option IndexGetter) (entTypeName : String)
    (id : Nat) (x : EntIndex) (nextKey : List Nat) :
    Except Err (List StorageIndexEdit) :=
  if nextKey = [] then .ok []
  else if x.unique then .ok [⟨x, nextKey, [id], false⟩]
  else
    match (match indexGet with
      | none => Except.ok []
      | some g => g entTypeName x.name nextKey) with
    | .error er => .error er
    | .ok ids => .ok [⟨x, nextKey, idSetAdd ids id, false⟩]

/-- One iteration of the `for each index` loop of `ComputeIndexEdits`:
skip when no participating field changed; encode previous/next keys;
skip entirely when both keys are nonempty and identical; otherwise emit the
cleanup edit followed by the insert edit. -/
def editsForIndex (indexGet : Option IndexGetter) (prevEnt nextEnt : Option EntData)
    (entTypeName : String) (id changedFields : Nat) (x : EntIndex) :
    Except Err (List StorageIndexEdit) :=
  if changedFields &&& x.fields = 0 then .ok []
  else
    match (match prevEnt with
      | none => Except.ok []
      | some e => encodeKey e x.fields) with
    | .error er => .error er
    | .ok prevKey =>
      match (match nextEnt with
        | none => Except.ok []
        | some e => encodeKey e x.fields) with
      | .error er => .error er
      | .ok nextKey =>
        if prevKey ≠ [] ∧ prevKey = nextKey then .ok []
        else
          match cleanupEditsFor indexGet entTypeName id x prevKey with
          | .error er => .error er
          | .ok cleanup =>
            match insertEditsFor indexGet entTypeName id x nextKey with
            | .error er => .error er
            | .ok ins => .ok (cleanup ++ ins)

/-- The `for i := range indexes` loop: edits of each index are appended in
index declaration order. -/
def editsLoop (indexGet : Option IndexGetter) (prevEnt nextEnt : Option EntData)
    (entTypeName : String) (id changedFields : Nat) :
    List EntIndex → Except Err (List StorageIndexEdit)
  | [] => .ok []
  | x :: xs =>
    match editsForIndex indexGet prevEnt nextEnt entTypeName id changedFields x with
    | .error er => .error er
    | .ok blk =>
      match editsLoop indexGet prevEnt nextEnt entTypeName id changedFields xs with
      | .error er => .error er
      | .ok rest => .ok (blk ++ rest)

/-- `roEnt`: "pick any ent for read-only operations" — the next ent, falling
back to the previous one. -/
def roEntOf (prevEnt nextEnt : Option EntData) : Option EntData :=
  match nextEnt with
  | some e => some e
  | none => prevEnt

/-- `ComputeIndexEdits` (the index diff engine).  With no previous ent
(creation), `changedFields` is replaced by the all-fields bitmap; with both
ents present their type names must agree.  Both ents absent dereferences a
nil pointer in Go (modelled as an error). -/
def ComputeIndexEdits (indexGet : Option IndexGetter) (prevEnt nextEnt : Option EntData)
    (id changedFields : Nat) : Except Err (List StorageIndexEdit) :=
  match roEntOf prevEnt nextEnt with
  | none => .error (.encoding "nil ent")
  | some roEnt =>
    match prevEnt with
    | none =>
      editsLoop indexGet prevEnt nextEnt roEnt.type.name id
        roEnt.type.fieldmap roEnt.type.indexes
    | some pe =>
      if pe.type.name ≠ roEnt.type.name then
        .error (.typeMismatch pe.type.name roEnt.type.name)
      else
        editsLoop indexGet prevEnt nextEnt roEnt.type.name id
          changedFields roEnt.type.indexes

theorem pairwise_of_forall_mem {α : Type} {Q : α → Prop} {S : α → α → Prop}
    (hs : ∀ a b, Q a → Q b → S a b) :
    ∀ {l : List α}, (∀ a ∈ l, Q a) → l.Pairwise S := by
  intro l
  induction l with
  | nil => intro _; exact List.Pairwise.nil
  | cons x xs ih =>
    intro h
    exact List.Pairwise.cons
      (fun b hb => hs x b (h x (by simp)) (h b (by simp [hb])))
      (ih fun a ha => h a (by simp [ha]))

theorem cleanupEditsFor_mem {g : Option IndexGetter} {tn : String} {id : Nat}
    {x : EntIndex} {pk : List Nat} {l : List StorageIndexEdit}
    (hret : cleanupEditsFor g tn id x pk = Except.ok l) :
    ∀ ed ∈ l, ed.index = x ∧ ed.isCleanup = true ∧ ed.key ≠ [] := by
  unfold cleanupEditsFor at hret
  by_cases hp : pk = []
  · rw [if_pos hp] at hret
    cases hret
    simp
  · rw [if_neg hp] at hret
    cases g with
    | none =>
      cases hret
      simp [hp]
    | some gf =>
      cases hg : gf tn x.name pk with
      | error er => simp only [hg] at hret; exact absurd hret (by simp)
      | ok ids =>
        simp only [hg] at hret
        by_cases hl : 0 < ids.length
        · rw [if_pos hl] at hret
          cases hret
          simp [hp]
        · rw [if_neg hl] at hret
          cases hret
          simp

theorem insertEditsFor_mem {g : Option IndexGetter} {tn : String} {id : Nat}
    {x : EntIndex} {nk : List Nat} {l : List StorageIndexEdit}
    (hret : insertEditsFor g tn id x nk = Except.ok l) :
    ∀ ed ∈ l, ed.index = x ∧ ed.isCleanup = false ∧ ed.key ≠ [] := by
  unfold insertEditsFor at hret
  by_cases hn : nk = []
  · rw [if_pos hn] at hret
    cases hret
    simp
  · rw [if_neg hn] at hret
    by_cases hu : x.unique
    · rw [if_pos hu] at hret
      cases hret
      simp [hn]
    · rw [if_neg hu] at hret
      cases hg : (match g with
        | none => Except.ok []
        | some gf => gf tn x.name nk) with
      | error er => simp only [hg] at hret; exact absurd hret (by simp)
      | ok ids =>
        simp only [hg] at hret
        cases hret
        simp [hn]

theorem editsForIndex_shape {g : Option IndexGetter} {prevEnt nextEnt : Option EntData}
    {tn : String} {id cf : Nat} {x : EntIndex} {l : List StorageIndexEdit}
    (hret : editsForIndex g prevEnt nextEnt tn id cf x = Except.ok l) :
    ∃ cl ins, l = cl ++ ins ∧
      (∀ ed ∈ cl, ed.index = x ∧ ed.isCleanup = true ∧ ed.key ≠ []) ∧
      (∀ ed ∈ ins, ed.index = x ∧ ed.isCleanup = false ∧ ed.key ≠ []) := by
  unfold editsForIndex at hret
  by_cases hskip : cf &&& x.fields = 0
  · rw [if_pos hskip] at hret
    cases hret
    exact ⟨[], [], rfl, by simp, by simp⟩
  · rw [if_neg hskip] at hret
    cases hpk : (match prevEnt with
      | none => Except.ok []
      | some e => encodeKey e x.fields) with
    | error er => simp only [hpk] at hret; exact absurd hret (by simp)
    | ok pk =>
      simp only [hpk] at hret
      cases hnk : (match nextEnt with
        | none => Except.ok []
        | some e => encodeKey e x.fields) with
      | error er => simp only [hnk] at hret; exact absurd hret (by simp)
      | ok nk =>
        simp only [hnk] at hret
        by_cases hid : pk ≠ [] ∧ pk = nk
        · rw [if_pos hid] at hret
          cases hret
          exact ⟨[], [], rfl, by simp, by simp⟩
        · rw [if_neg hid] at hret
          cases hcl : cleanupEditsFor g tn id x pk with
          | error er => simp only [hcl] at hret; exact absurd hret (by simp)
          | ok cl =>
            simp only [hcl] at hret
            cases hins : insertEditsFor g tn id x nk with
            | error er => simp only [hins] at hret; exact absurd hret (by simp)
            | ok ins =>
              simp only [hins] at hret
              cases hret
              exact ⟨cl, ins, rfl, cleanupEditsFor_mem hcl, insertEditsFor_mem hins⟩

/-- Membership of the looped edits: every edit belongs to one of the
iterated indexes and has a nonempty key. -/
theorem editsLoop_mem {g : Option IndexGetter} {prevEnt nextEnt : Option EntData}
    {tn : String} {id cf : Nat} :
    ∀ {xs : List EntIndex} {l : List StorageIndexEdit},
      editsLoop g prevEnt nextEnt tn id cf xs = Except.ok l →
      ∀ ed ∈ l, ed.index ∈ xs ∧ ed.key ≠ [] := by
  intro xs
  induction xs with
  | nil =>
    intro l hret
    cases hret
    simp
  | cons x xs ih =>
    intro l hret
    unfold editsLoop at hret
    cases hblk : editsForIndex g prevEnt nextEnt tn id cf x with
    | error er => simp only [hblk] at hret; exact absurd hret (by simp)
    | ok blk =>
      simp only [hblk] at hret
      cases hrest : editsLoop g prevEnt nextEnt tn id cf xs with
      | error er => simp only [hrest] at hret; exact absurd hret (by simp)
      | ok rest =>
        simp only [hrest] at hret
        cases hret
        intro ed hed
        rcases List.mem_append.mp hed with hm | hm
        · obtain ⟨cl, ins, hsplit, hcl, hins⟩ := editsForIndex_shape hblk
          subst hsplit
          rcases List.mem_append.mp hm with hm' | hm'
          · exact ⟨by simp [(hcl ed hm').1], (hcl ed hm').2.2⟩
          · exact ⟨by simp [(hins ed hm').1], (hins ed hm').2.2⟩
        · obtain ⟨hx, hk⟩ := ih hrest ed hm
          exact ⟨by simp [hx], hk⟩

/-- Ordering relation asserted by the amended C5: a later cleanup edit for
the same index name forces the earlier edit to be a cleanup as well, i.e.
within one index's edits, cleanup comes before insert. -/
def CleanupBeforeInsert (a b : StorageIndexEdit) : Prop :=
  a.index.name = b.index.name → b.isCleanup = true → a.isCleanup = true

instance : DecidableRel CleanupBeforeInsert := fun a b => by
  unfold CleanupBeforeInsert; infer_instance

theorem editsLoop_pairwise {g : Option IndexGetter} {prevEnt nextEnt : Option EntData}
    {tn : String} {id cf : Nat} :
    ∀ {xs : List EntIndex} {l : List StorageIndexEdit},
      editsLoop g prevEnt nextEnt tn id cf xs = Except.ok l →
      (xs.map EntIndex.name).Nodup →
      l.Pairwise CleanupBeforeInsert := by
  intro xs
  induction xs with
  | nil =>
    intro l hret _
    cases hret
    exact List.Pairwise.nil
  | cons x xs ih =>
    intro l hret hnodup
    unfold editsLoop at hret
    cases hblk : editsForIndex g prevEnt nextEnt tn id cf x with
    | error er => simp only [hblk] at hret; exact absurd hret (by simp)
    | ok blk =>
      simp only [hblk] at hret
      cases hrest : editsLoop g prevEnt nextEnt tn id cf xs with
      | error er => simp only [hrest] at hret; exact absurd hret (by simp)
      | ok rest =>
        simp only [hrest] at hret
        cases hret
        rw [List.map_cons, List.nodup_cons] at hnodup
        obtain ⟨cl, ins, hsplit, hcl, hins⟩ := editsForIndex_shape hblk
        subst hsplit
        rw [List.pairwise_append]
        refine ⟨?_, ih hrest hnodup.2, ?_⟩
        · rw [List.pairwise_append]
          refine ⟨?_, ?_, ?_⟩
          · exact pairwise_of_forall_mem
              (Q := fun e => e.isCleanup = true)
              (fun a b ha _ _ _ => ha) (fun a ha => (hcl a ha).2.1)
          · exact pairwise_of_forall_mem
              (Q := fun e => e.isCleanup = false)
              (fun a b _ hb _ hbcl => absurd hbcl (by simp [hb]))
              (fun a ha => (hins a ha).2.1)
          · intro a ha b hb
            intro _ _
            exact (hcl a ha).2.1
        · intro a ha b hb
          intro hname _
          have hax : a.index = x := by
            rcases List.mem_append.mp ha with h | h
            · exact (hcl a h).1
            · exact (hins a h).1
          have hbxs : b.index ∈ xs := (editsLoop_mem hrest b hb).1
          have h1 : x.name = b.index.name := by rw [← hax]; exact hname
          have h2 : b.index.name ∈ xs.map EntIndex.name :=
            List.mem_map_of_mem EntIndex.name hbxs
          have h3 := hnodup.1
          rw [h1] at h3
          exact absurd h2 h3

instance {ε α : Type} [DecidableEq ε] [DecidableEq α] : DecidableEq (Except ε α) :=
  fun a b =>
    match a, b with
    | .ok x, .ok y =>
      if h : x = y then .isTrue (by rw [h]) else .isFalse (by simp [h])
    | .error x, .error y =>
      if h : x = y then .isTrue (by rw [h]) else .isFalse (by simp [h])
    | .ok _, .error _ => .isFalse (by simp)
    | .error _, .ok _ => .isFalse (by simp)

/-! Concrete fixtures used by counterexamples and witnesses: a type `A` with
one indexed string field `a`, and a type `B` with two string fields `a`, `b`
and one non-unique index on each. -/

def idxA : EntIndex := ⟨"byA", 1, false⟩

def typeA : EntType := ⟨"A", [[97]], [idxA]⟩

def idxB0 : EntIndex := ⟨"byA", 1, false⟩

def idxB1 : EntIndex := ⟨"byB", 2, false⟩

def typeB : EntType := ⟨"B", [[97], [98]], [idxB0, idxB1]⟩

def entBprev : EntData := ⟨typeB, [.str [104], .str [105]]⟩

def entBnext : EntData := ⟨typeB, [.str [106], .str [107]]⟩

/-- C9: no edit of the diff engine ever carries an empty index-entry key:
an empty encoded next key (e.g. from an empty string or zero-length blob
single-field value) produces no insert edit for that index, and an empty
prev key produces no cleanup edit — so an entity whose indexed value encodes
to the empty key never appears in that index. -/
theorem computeIndexEdits_no_empty_keys
    (g : Option IndexGetter) (prevEnt nextEnt : Option EntData) (id cf : Nat)
    (edits : List StorageIndexEdit)
    (h : ComputeIndexEdits g prevEnt nextEnt id cf = Except.ok edits) :
    ∀ ed ∈ edits, ed.key ≠ [] := by
  cases prevEnt with
  | none =>
    cases nextEnt with
    | none =>
      simp only [ComputeIndexEdits, roEntOf] at h
      exact absurd h (by simp)
    | some ne =>
      simp only [ComputeIndexEdits, roEntOf] at h
      intro ed hed
      exact (editsLoop_mem h ed hed).2
  | some pe =>
    cases nextEnt with
    | none =>
      simp only [ComputeIndexEdits, roEntOf] at h
      rw [if_neg (by simp)] at h
      intro ed hed
      exact (editsLoop_mem h ed hed).2
    | some ne =>
      simp only [ComputeIndexEdits, roEntOf] at h
      by_cases hname : pe.type.name ≠ ne.type.name
      · rw [if_pos hname] at h
        exact absurd h (by simp)
      · rw [if_neg hname] at h
        intro ed hed
        exact (editsLoop_mem h ed hed).2

/-- Witness for C9: updating the indexed field of type `A` from `"h"` to the
empty string emits only the cleanup edit — no insert edit with an empty key. -/
theorem computeIndexEdits_no_empty_keys_witness :
    (⟨idxA, [104], [], true⟩ : StorageIndexEdit).key ≠ [] :=
  computeIndexEdits_no_empty_keys none (some ⟨typeA, [.str [104]]⟩)
    (some ⟨typeA, [.str []]⟩) 5 1 [⟨idxA, [104], [], true⟩] (by decide)
    ⟨idxA, [104], [], true⟩ (by decide)

/-- C5 counterexample: an update touching two indexes yields the edit list
`[cleanup byA, insert byA, cleanup byB, insert byB]` — the insert for `byA`
(position 1) precedes the cleanup for `byB` (position 2), so cleanup edits
for all affected indexes do not precede all insert edits. -/
theorem computeIndexEdits_insert_before_cleanup :
    ∃ l, ComputeIndexEdits none (some entBprev) (some entBnext) 7 3 = Except.ok l ∧
      l.map StorageIndexEdit.isCleanup = [true, false, true, false] ∧
      ¬ ∀ i j : Fin l.length, (l.get i).isCleanup = true →
          (l.get j).isCleanup = false → (i : Nat) < (j : Nat) := by
  refine ⟨[⟨idxB0, [104], [], true⟩, ⟨idxB0, [106], [7], false⟩,
           ⟨idxB1, [105], [], true⟩, ⟨idxB1, [107], [7], false⟩],
    by decide, by decide, by decide⟩

/-- C5 (amended): in the edit list of the diff engine, cleanup edits precede
insert edits per affected index (an edit list entry that is a cleanup for
some index is never preceded by an insert for the same index); edits of
different indexes are grouped per index in declaration order, so a cleanup
of a later index may follow an insert of an earlier one. -/
theorem computeIndexEdits_cleanup_before_insert_per_index
    (g : Option IndexGetter) (prevEnt nextEnt : Option EntData) (id cf : Nat)
    (edits : List StorageIndexEdit)
    (h : ComputeIndexEdits g prevEnt nextEnt id cf = Except.ok edits)
    (hn : ∀ e, roEntOf prevEnt nextEnt = some e →
      (e.type.indexes.map EntIndex.name).Nodup) :
    edits.Pairwise CleanupBeforeInsert := by
  cases prevEnt with
  | none =>
    cases nextEnt with
    | none =>
      simp only [ComputeIndexEdits, roEntOf] at h
      exact absurd h (by simp)
    | some ne =>
      simp only [ComputeIndexEdits, roEntOf] at h
      exact editsLoop_pairwise h (hn ne rfl)
  | some pe =>
    cases nextEnt with
    | none =>
      simp only [ComputeIndexEdits, roEntOf] at h
      rw [if_neg (by simp)] at h
      exact editsLoop_pairwise h (hn pe rfl)
    | some ne =>
      simp only [ComputeIndexEdits, roEntOf] at h
      by_cases hname : pe.type.name ≠ ne.type.name
      · rw [if_pos hname] at h
        exact absurd h (by simp)
      · rw [if_neg hname] at h
        exact editsLoop_pairwise h (hn ne rfl)

/-- Witness for the amended C5 at the two-index update. -/
theorem computeIndexEdits_cleanup_before_insert_per_index_witness :
    List.Pairwise CleanupBeforeInsert
      [(⟨idxB0, [104], [], true⟩ : StorageIndexEdit),
       ⟨idxB0, [106], [7], false⟩,
       ⟨idxB1, [105], [], true⟩,
       ⟨idxB1, [107], [7], false⟩] :=
  computeIndexEdits_cleanup_before_insert_per_index none (some entBprev)
    (some entBnext) 7 3 _ (by decide) (fun e he => by cases he; decide)

/-- C6 counterexample: in deletion mode (`next = none`) `changed_fields` is
NOT replaced with the all-fields set — with `changed = ∅` the engine
computes no edits at all, while the all-fields call emits the cleanup edit. -/
theorem computeIndexEdits_delete_respects_changed :
    ComputeIndexEdits none (some ⟨typeA, [.str [104]]⟩) none 5 0 ≠
      ComputeIndexEdits none (some ⟨typeA, [.str [104]]⟩) none 5 typeA.fieldmap ∧
    ComputeIndexEdits none (some ⟨typeA, [.str [104]]⟩) none 5 0 = Except.ok [] ∧
    ComputeIndexEdits none (some ⟨typeA, [.str [104]]⟩) none 5 typeA.fieldmap =
      Except.ok [⟨idxA, [104], [], true⟩] := by
  refine ⟨?_, by decide, by decide⟩
  decide

/-- C6 (amended): only creation mode (`prev = none`) ignores
`changed_fields` and substitutes the all-fields set (so creation populates
every index regardless of the passed set); deletion mode uses
`changed_fields` exactly as passed — the deleting caller is responsible for
passing the all-fields set. -/
theorem computeIndexEdits_create_ignores_changed
    (g : Option IndexGetter) (e : EntData) (id cf cf' : Nat) :
    ComputeIndexEdits g none (some e) id cf =
      ComputeIndexEdits g none (some e) id cf' := rfl

/-! ## In-memory storage backend (`mem/storage.go`, `mem/scopedmap.go`)

The backend keeps one shared `map[string][]byte` holding both entity
payloads (`"{type}:{id_base36}"` → JSON) and index postings
(`"{type}#{index}:{key}"` → encoded `IdSet`).  The model types the stored
values (`Entry`): the JSON payload blob is abstracted to the `(id, version,
field values)` triple it encodes (`JsonEncodeEnt`/`JsonDecodeEnt` round-trip),
and a posting blob to the id list it encodes (`IdSet.Encode`/`ParseIdSet`
round-trip, the latter verified separately).  The map is an association
list with unique keys; `ScopedMap` is the base plus an overlay of writes,
where `none` is a deletion tombstone. -/

inductive Entry where
  | payload (id version : Nat) (vals : List FieldVal)
  | idset (ids : List Nat)
deriving DecidableEq, Repr

abbrev Store : Type := List (String × Entry)

def storeGet (m : Store) (k : String) : Option Entry :=
  List.lookup k m

def storePut (m : Store) (k : String) (v : Entry) : Store :=
  (k, v) :: m.filter fun p => p.1 != k

def storeDel (m : Store) (k : String) : Store :=
  m.filter fun p => p.1 != k

/-- A transaction scope (`ScopedMap` with an outer map): local writes, with
`none` recording a `Del` tombstone. -/
abbrev Scope : Type := List (String × Option Entry)

/-- `ScopedMap.Get`: local hit (including tombstones) else outer map. -/
def scopeGet (base : Store) (ov : Scope) (k : String) : Option Entry :=
  match List.lookup k ov with
  | some v => v
  | none => storeGet base k

def scopePut (ov : Scope) (k : String) (v : Entry) : Scope :=
  (k, some v) :: ov.filter fun p => p.1 != k

def scopeDel (ov : Scope) (k : String) : Scope :=
  (k, none) :: ov.filter fun p => p.1 != k

/-- `ScopedMap.ApplyToOuter`: replay every scope entry on the outer map;
a `Put` with nil value is a delete. -/
def applyToOuter (base : Store) (ov : Scope) : Store :=
  ov.foldl
    (fun m p =>
      match p.2 with
      | some v => storePut m p.1 v
      | none => storeDel m p.1)
    base

/-- Bytes to a Go string (chars are the byte values; valid since < 256). -/
def bytesToString (l : List Nat) : String :=
  String.mk (l.map Char.ofNat)

/-- `strconv.FormatUint(id, 36)`. -/
def base36Str (n : Nat) : String := bytesToString (natToBase36 n)

/-- `EntStorage.entKey`: `"{type}:{id_base36}"`. -/
def entKey (typeName : String) (id : Nat) : String :=
  typeName ++ ":" ++ base36Str id

/-- `EntStorage.indexKey`: `"{type}#{index}:{key}"`. -/
def indexKeyStr (typeName indexName : String) (key : List Nat) : String :=
  typeName ++ "#" ++ indexName ++ ":" ++ bytesToString key

/-- `EntStorage.indexGet`: read the posting blob at the index key; absent or
empty blob means the empty set; a stored blob that is not an id set makes Go
`ParseIdSet` panic. -/
def memIndexGet (m : Store) : IndexGetter := fun entTypeName indexName key =>
  match storeGet m (indexKeyStr entTypeName indexName key) with
  | none => .ok []
  | some (.idset ids) => .ok ids
  | some (.payload _ _ _) => .error .panicIdSet

/-- `EntBase` + the typed fields: id, version, dirty-field bitmap, data. -/
structure EntState where
  id : Nat
  version : Nat
  fieldmap : Nat
  data : EntData
deriving DecidableEq, Repr

/-- Zero value of a field's declared Go type. -/
def zeroVal : FieldVal → FieldVal
  | .str _ => .str []
  | .blob _ => .blob []
  | .uint w _ => .uint w 0
  | .boolv _ => .boolv false

/-- Generated `EntDecodePartial` driven by `JsonDecodeEntPartial`: decode
into a fresh `EntNew()` instance only the fields whose bit is in `fields`,
leaving the others at their zero value. -/
def decodePartial (t : EntType) (storedVals : List FieldVal) (fields : Nat) : EntData :=
  ⟨t, storedVals.enum.map fun p =>
    if Nat.testBit fields p.1 then p.2 else zeroVal p.2⟩

/-- The load-and-verify stage of `putEnt` (`mem/storage.go` lines 100-117):
with a nonzero expected version, read the stored snapshot through the fresh
scope; a missing record leaves `prevEnt = nil` (NO NotFound error); a
version mismatch aborts with `ErrVersionConflict`; otherwise the partial
decode of the stored record becomes the previous ent. -/
def versionCheck (m : Store) (e : EntState) (id cf : Nat) :
    Except Err (Option EntData) :=
  if e.version ≠ 0 then
    match scopeGet m [] (entKey e.data.type.name id) with
    | none => .ok none
    | some (.payload _ storedVer storedVals) =>
      if e.version ≠ storedVer then .error .versionConflict
      else .ok (some (decodePartial e.data.type storedVals cf))
    | some (.idset _) => .error (.encoding "json")
  else .ok none

/-- The edit-application loop of `putEnt` (`mem/storage.go` lines 126-150):
an empty-value edit deletes its key in the scope; a non-cleanup edit on a
unique index first checks the base map for an existing posting — an id of a
different ent aborts with the unique-conflict error naming ent type and
index, the ent's own id skips the write; all other edits write the encoded
id set into the scope. -/
def applyEdits (base : Store) (tn : String) (id : Nat) :
    List StorageIndexEdit → Scope → Except Err Scope
  | [], ov => .ok ov
  | ed :: rest, ov =>
    if ed.value = [] then
      applyEdits base tn id rest
        (scopeDel ov (indexKeyStr tn ed.index.name ed.key))
    else if ed.isCleanup = false ∧ ed.index.unique = true then
      match memIndexGet base tn ed.index.name ed.key with
      | .error er => .error er
      | .ok [] =>
        applyEdits base tn id rest
          (scopePut ov (indexKeyStr tn ed.index.name ed.key) (.idset ed.value))
      | .ok (i :: _) =>
        if i = id then applyEdits base tn id rest ov
        else .error (.uniqueConflict tn ed.index.name)
    else
      applyEdits base tn id rest
        (scopePut ov (indexKeyStr tn ed.index.name ed.key) (.idset ed.value))

/-- `EntStorage.putEnt` (`mem/storage.go`): encode the payload, fork a
scope, verify the expected version, compute index edits (previous snapshot
as prev, the written ent as next), apply them with unique-conflict checks,
then commit scope and payload.  Any failure returns before anything reaches
the shared map. -/
def putEnt (m : Store) (e : EntState) (id version cf : Nat) : Except Err Store :=
  let json : Entry := .payload id version e.data.vals
  let key := entKey e.data.type.name id
  match versionCheck m e id cf with
  | .error er => .error er
  | .ok prevEnt =>
    match ComputeIndexEdits (some (memIndexGet m)) prevEnt (some e.data) id cf with
    | .error er => .error er
    | .ok edits =>
      match applyEdits m e.data.type.name id edits [] with
      | .error er => .error er
      | .ok ov => .ok (storePut (applyToOuter m ov) key json)

/-- The shared storage value: id generator plus the key-value map. -/
structure EntStorage where
  idgen : Nat
  m : Store
deriving DecidableEq

/-- `EntStorage.CreateEnt`: allocate the next id (the generator advances
even when the write fails), then `putEnt` with `version = 1`. -/
def storageCreateEnt (s : EntStorage) (e : EntState) (fieldmap : Nat) :
    Except Err Unit × Nat × EntStorage :=
  let id := s.idgen + 1
  match putEnt s.m e id 1 fieldmap with
  | .ok m' => (.ok (), id, ⟨id, m'⟩)
  | .error er => (.error er, id, ⟨id, s.m⟩)

/-- `EntStorage.SaveEnt`: `putEnt` with the ent's id and `version + 1`. -/
def storageSaveEnt (s : EntStorage) (e : EntState) (fieldmap : Nat) :
    Except Err Unit × Nat × EntStorage :=
  let nextVersion := e.version + 1
  match putEnt s.m e e.id nextVersion fieldmap with
  | .ok m' => (.ok (), nextVersion, ⟨s.idgen, m'⟩)
  | .error er => (.error er, nextVersion, ⟨s.idgen, s.m⟩)

/-- `EntStorage.DeleteEnt` (`mem/storage.go` lines 64-74): delete the
payload key only; `ErrNotFound` when it was absent.  No index access of any
kind. -/
def storageDeleteEnt (s : EntStorage) (e : EntState) :
    Except Err Unit × EntStorage :=
  let key := entKey e.data.type.name e.id
  let found := (storeGet s.m key).isSome
  let m' := storeDel s.m key
  if found then (.ok (), ⟨s.idgen, m'⟩) else (.error .notFound, ⟨s.idgen, m'⟩)

/-- `EntStorage.FindEntIdsByIndex`: index lookup plus `limitIds`. -/
def findEntIdsByIndex (s : EntStorage) (tn : String) (x : EntIndex)
    (key : List Nat) (limit : Nat) : Except Err (List Nat) :=
  match memIndexGet s.m tn x.name key with
  | .error er => .error er
  | .ok ids => .ok (if 0 < limit ∧ limit < ids.length then ids.take limit else ids)

/-- `ent.CreateEnt` (`ent.go`): on success install id, version 1 and clear
the dirty set on the ent; on failure leave the ent untouched. -/
def CreateEnt (e : EntState) (s : EntStorage) :
    Except Err Unit × EntState × EntStorage :=
  match storageCreateEnt s e e.data.type.fieldmap with
  | (.ok _, id, s') => (.ok (), { e with id := id, version := 1, fieldmap := 0 }, s')
  | (.error er, _, s') => (.error er, e, s')

/-- `ent.SaveEnt` (`ent.go`): an empty dirty set is `ErrNotChanged`; on
success install the next version and clear the dirty set; on failure leave
the ent untouched. -/
def SaveEnt (e : EntState) (s : EntStorage) :
    Except Err Unit × EntState × EntStorage :=
  if e.fieldmap = 0 then (.error .notChanged, e, s)
  else
    match storageSaveEnt s e e.fieldmap with
    | (.ok _, v, s') => (.ok (), { e with version := v, fieldmap := 0 }, s')
    | (.error er, _, s') => (.error er, e, s')

/-! Storage fixtures: a type `U` with one unique-indexed string field
`e` (think "email"), and an index-free type `C`. -/

def idxU : EntIndex := ⟨"byE", 1, true⟩

def typeU : EntType := ⟨"U", [[101]], [idxU]⟩

def sGhost : EntStorage :=
  ⟨1, [(entKey "U" 1, .payload 1 1 [.str [97]]),
       (indexKeyStr "U" "byE" [97], .idset [1])]⟩

def eGhost : EntState := ⟨1, 1, 0, ⟨typeU, [.str [97]]⟩⟩

def typeC : EntType := ⟨"C", [[97]], []⟩

def sVC : EntStorage := ⟨1, [(entKey "C" 1, .payload 1 2 [.str [104]])]⟩

def eVC : EntState := ⟨1, 1, 1, ⟨typeC, [.str [104]]⟩⟩

/-- C1 (code bug): `EntStorage.DeleteEnt` of the in-memory backend removes
only the payload and never touches the indexes.  Deleting the only `U` ent
(id 1, unique-indexed value `"a"`) succeeds, yet the index posting for its
value still resolves to id 1 afterwards, and creating a different ent with
the same indexed value fails with the ghost unique conflict.  This
contradicts the spec's delete algorithm and the repository's own
transactional-index documentation; the later generation of the same backend
(`EntStorage.Delete` in `src/unnamed/part_008`) implements the cleanup. -/
theorem deleteEnt_leaves_ghost_posting :
    (storageDeleteEnt sGhost eGhost).1 = .ok () ∧
    findEntIdsByIndex (storageDeleteEnt sGhost eGhost).2 "U" idxU [97] 0 =
      .ok [1] ∧
    (CreateEnt ⟨0, 0, 1, ⟨typeU, [.str [97]]⟩⟩ (storageDeleteEnt sGhost eGhost).2).1 =
      .error (.uniqueConflict "U" "byE") := by
  refine ⟨by decide, by decide, by decide⟩

/-- C2: atomicity of the write path.  Whenever `SaveEnt` or `CreateEnt` on
the in-memory backend returns an error — version conflict, unique conflict,
encoding or index-lookup failure — the backend's shared key-value map is
exactly what it was before the call (for create, only the id generator has
advanced) and the caller's ent keeps its prior id, version and dirty set. -/
theorem writePath_error_atomic (s : EntStorage) (e : EntState) :
    (∀ er, (SaveEnt e s).1 = .error er → SaveEnt e s = (.error er, e, s)) ∧
    (∀ er, (CreateEnt e s).1 = .error er →
      CreateEnt e s = (.error er, e, ⟨s.idgen + 1, s.m⟩)) := by
  obtain ⟨ig, mm⟩ := s
  constructor
  · intro er h
    unfold SaveEnt at h ⊢
    by_cases hf : e.fieldmap = 0
    · rw [if_pos hf] at h ⊢
      simp only [] at h
      cases h
      rfl
    · rw [if_neg hf] at h ⊢
      unfold storageSaveEnt at h ⊢
      cases hp : putEnt mm e e.id (e.version + 1) e.fieldmap with
      | ok m' =>
        simp only [hp] at h
        exact absurd h (by simp)
      | error er' =>
        simp only [hp] at h ⊢
        cases h
        rfl
  · intro er h
    unfold CreateEnt at h ⊢
    unfold storageCreateEnt at h ⊢
    cases hp : putEnt mm e (ig + 1) 1 e.data.type.fieldmap with
    | ok m' =>
      simp only [hp] at h
      exact absurd h (by simp)
    | error er' =>
      simp only [hp] at h ⊢
      cases h
      rfl

/-- Witness for C2: a version-conflicted save leaves map and ent as-is. -/
theorem writePath_error_atomic_witness :
    SaveEnt eVC sVC = (.error .versionConflict, eVC, sVC) :=
  (writePath_error_atomic sVC eVC).1 .versionConflict (by decide)

/-- C3 counterexample: a save with expected version `1` against a store
with NO record under the ent's key does not fail with `NotFound` — it
succeeds, writing the payload as a fresh creation-mode write with version
`expected + 1`. -/
theorem saveEnt_missing_record_no_notFound :
    (SaveEnt eVC ⟨0, []⟩).1 = .ok () ∧
    SaveEnt eVC ⟨0, []⟩ =
      (.ok (), ⟨1, 2, 0, ⟨typeC, [.str [104]]⟩⟩,
        ⟨0, [(entKey "C" 1, .payload 1 2 [.str [104]])]⟩) := by
  refine ⟨by decide, by decide⟩

theorem scopeGet_nil (base : Store) (k : String) :
    scopeGet base [] k = storeGet base k := rfl

theorem versionCheck_zero {m : Store} {e : EntState} {id cf : Nat}
    (hz : e.version = 0) : versionCheck m e id cf = .ok none := by
  unfold versionCheck
  rw [if_neg (by simp [hz])]

theorem versionCheck_absent {m : Store} {e : EntState} {id cf : Nat}
    (hv : e.version ≠ 0)
    (habs : storeGet m (entKey e.data.type.name id) = none) :
    versionCheck m e id cf = .ok none := by
  unfold versionCheck
  rw [if_pos hv, scopeGet_nil, habs]

theorem versionCheck_mismatch {m : Store} {e : EntState} {id cf : Nat}
    {sid sver : Nat} {svals : List FieldVal}
    (hv : e.version ≠ 0)
    (hsg : storeGet m (entKey e.data.type.name id) =
      some (.payload sid sver svals))
    (hne : sver ≠ e.version) :
    versionCheck m e id cf = .error .versionConflict := by
  unfold versionCheck
  rw [if_pos hv, scopeGet_nil, hsg]
  simp only []
  rw [if_pos (Ne.symm hne)]

theorem putEnt_error_of_versionCheck {m : Store} {e : EntState}
    {id version cf : Nat} {er : Err}
    (h : versionCheck m e id cf = .error er) :
    putEnt m e id version cf = .error er := by
  unfold putEnt
  rw [h]

/-- C3 (amended): for a save with `expected_version = entity.version ≠ 0` on
the in-memory backend: if NO record is stored under the entity's key, the
call does not fail — the version check is skipped and the write proceeds
exactly as if the entity had version 0 (a fresh creation-mode write); if a
stored record exists whose decoded version differs from the expected
version, the call fails with `VersionConflict`, the unit of work is aborted
and nothing is written (map and ent unchanged). -/
theorem putEnt_version_check (s : EntStorage) (e : EntState)
    (id version cf : Nat) (hv : e.version ≠ 0) :
    (storeGet s.m (entKey e.data.type.name id) = none →
      putEnt s.m e id version cf =
        putEnt s.m { e with version := 0 } id version cf) ∧
    (∀ sid sver svals,
      storeGet s.m (entKey e.data.type.name id) =
        some (.payload sid sver svals) →
      sver ≠ e.version →
      putEnt s.m e id version cf = .error .versionConflict) ∧
    (∀ sid sver svals,
      storeGet s.m (entKey e.data.type.name e.id) =
        some (.payload sid sver svals) →
      sver ≠ e.version → e.fieldmap ≠ 0 →
      SaveEnt e s = (.error .versionConflict, e, s)) := by
  obtain ⟨ig, mm⟩ := s
  refine ⟨fun habs => ?_, fun sid sver svals hsg hne => ?_,
    fun sid sver svals hsg hne hf => ?_⟩
  · unfold putEnt
    rw [versionCheck_absent hv habs,
      versionCheck_zero (e := { e with version := 0 }) (by simp)]
  · exact putEnt_error_of_versionCheck (versionCheck_mismatch hv hsg hne)
  · have hpe : putEnt mm e e.id (e.version + 1) e.fieldmap =
        .error .versionConflict :=
      putEnt_error_of_versionCheck (versionCheck_mismatch hv hsg hne)
    unfold SaveEnt storageSaveEnt
    rw [if_neg hf]
    simp only [hpe]

/-- Witness for the amended C3: version-mismatch save fails and aborts;
absent-record save equals the version-0 call. -/
theorem putEnt_version_check_witness :
    putEnt sVC.m eVC 1 2 1 = .error .versionConflict ∧
    SaveEnt eVC sVC = (.error .versionConflict, eVC, sVC) ∧
    putEnt ([] : Store) eVC 1 2 1 =
      putEnt ([] : Store) { eVC with version := 0 } 1 2 1 := by
  refine ⟨?_, ?_, ?_⟩
  · exact (putEnt_version_check sVC eVC 1 2 1 (by decide)).2.1 1 2
      [.str [104]] (by decide) (by decide)
  · exact (putEnt_version_check sVC eVC 1 2 1 (by decide)).2.2 1 2
      [.str [104]] (by decide) (by decide) (by decide)
  · exact (putEnt_version_check ⟨0, []⟩ eVC 1 2 1 (by decide)).1 (by decide)

/-- `true` iff the lookup succeeded. -/
def isOkB {α : Type} (x : Except Err α) : Bool :=
  match x with
  | .ok _ => true
  | .error _ => false

/-- An index edit that would insert a unique-index entry at a key that the
shared map already maps to a different entity's id (the condition the
collision check of `putEnt` fires on). -/
def conflictB (base : Store) (tn : String) (id : Nat) (ed : StorageIndexEdit) : Bool :=
  !ed.isCleanup && ed.index.unique && !ed.value.isEmpty &&
  (match memIndexGet base tn ed.index.name ed.key with
   | .ok (i :: _) => i != id
   | _ => false)

theorem applyEdits_conflict {base : Store} {tn : String} {id : Nat} :
    ∀ {edits : List StorageIndexEdit} (ov : Scope),
      (∀ ed ∈ edits, isOkB (memIndexGet base tn ed.index.name ed.key) = true) →
      (∃ ed ∈ edits, conflictB base tn id ed = true) →
      ∃ ed ∈ edits, conflictB base tn id ed = true ∧
        applyEdits base tn id edits ov =
          .error (.uniqueConflict tn ed.index.name) := by
  intro edits
  induction edits with
  | nil =>
    intro ov _ hex
    rcases hex with ⟨ed, hm, -⟩
    simp at hm
  | cons e0 rest ih =>
    intro ov hlk hex
    unfold applyEdits
    by_cases hv0 : e0.value = []
    · rw [if_pos hv0]
      have hc0 : conflictB base tn id e0 = false := by
        simp [conflictB, hv0]
      have hex' : ∃ ed ∈ rest, conflictB base tn id ed = true := by
        rcases hex with ⟨ed, hm, hc⟩
        rcases List.mem_cons.mp hm with rfl | hm'
        · rw [hc0] at hc
          exact absurd hc (by simp)
        · exact ⟨ed, hm', hc⟩
      obtain ⟨ed, hm, hc, happ⟩ := ih _ (fun ed hm => hlk ed (by simp [hm])) hex'
      exact ⟨ed, by simp [hm], hc, happ⟩
    · rw [if_neg hv0]
      by_cases hcu : e0.isCleanup = false ∧ e0.index.unique = true
      · rw [if_pos hcu]
        cases hg : memIndexGet base tn e0.index.name e0.key with
        | error er =>
          have hok := hlk e0 (by simp)
          rw [hg] at hok
          simp [isOkB] at hok
        | ok ids =>
          cases ids with
          | nil =>
            simp only [hg]
            have hc0 : conflictB base tn id e0 = false := by
              simp [conflictB, hg]
            have hex' : ∃ ed ∈ rest, conflictB base tn id ed = true := by
              rcases hex with ⟨ed, hm, hc⟩
              rcases List.mem_cons.mp hm with rfl | hm'
              · rw [hc0] at hc
                exact absurd hc (by simp)
              · exact ⟨ed, hm', hc⟩
            obtain ⟨ed, hm, hc, happ⟩ :=
              ih _ (fun ed hm => hlk ed (by simp [hm])) hex'
            exact ⟨ed, by simp [hm], hc, happ⟩
          | cons i tl =>
            simp only [hg]
            by_cases hi : i = id
            · rw [if_pos hi]
              have hc0 : conflictB base tn id e0 = false := by
                simp [conflictB, hg, hi]
              have hex' : ∃ ed ∈ rest, conflictB base tn id ed = true := by
                rcases hex with ⟨ed, hm, hc⟩
                rcases List.mem_cons.mp hm with rfl | hm'
                · rw [hc0] at hc
                  exact absurd hc (by simp)
                · exact ⟨ed, hm', hc⟩
              obtain ⟨ed, hm, hc, happ⟩ :=
                ih _ (fun ed hm => hlk ed (by simp [hm])) hex'
              exact ⟨ed, by simp [hm], hc, happ⟩
            · rw [if_neg hi]
              refine ⟨e0, by simp, ?_, rfl⟩
              simp [conflictB, hg, hcu.1, hcu.2, hv0, hi]
      · rw [if_neg hcu]
        have hc0 : conflictB base tn id e0 = false := by
          rcases Decidable.not_and_iff_or_not.mp hcu with h | h
          · have hcl : e0.isCleanup = true := by simpa using h
            simp [conflictB, hcl]
          · have hu : e0.index.unique = false := by simpa using h
            simp [conflictB, hu]
        have hex' : ∃ ed ∈ rest, conflictB base tn id ed = true := by
          rcases hex with ⟨ed, hm, hc⟩
          rcases List.mem_cons.mp hm with rfl | hm'
          · rw [hc0] at hc
            exact absurd hc (by simp)
          · exact ⟨ed, hm', hc⟩
        obtain ⟨ed, hm, hc, happ⟩ := ih _ (fun ed hm => hlk ed (by simp [hm])) hex'
        exact ⟨ed, by simp [hm], hc, happ⟩

theorem applyEdits_ok {base : Store} {tn : String} {id : Nat} :
    ∀ {edits : List StorageIndexEdit} (ov : Scope),
      (∀ ed ∈ edits, isOkB (memIndexGet base tn ed.index.name ed.key) = true) →
      (∀ ed ∈ edits, conflictB base tn id ed = false) →
      ∃ ov', applyEdits base tn id edits ov = .ok ov' := by
  intro edits
  induction edits with
  | nil => intro ov _ _; exact ⟨ov, rfl⟩
  | cons e0 rest ih =>
    intro ov hlk hno
    unfold applyEdits
    by_cases hv0 : e0.value = []
    · rw [if_pos hv0]
      exact ih _ (fun ed hm => hlk ed (by simp [hm])) (fun ed hm => hno ed (by simp [hm]))
    · rw [if_neg hv0]
      by_cases hcu : e0.isCleanup = false ∧ e0.index.unique = true
      · rw [if_pos hcu]
        cases hg : memIndexGet base tn e0.index.name e0.key with
        | error er =>
          have hok := hlk e0 (by simp)
          rw [hg] at hok
          simp [isOkB] at hok
        | ok ids =>
          cases ids with
          | nil =>
            simp only [hg]
            exact ih _ (fun ed hm => hlk ed (by simp [hm]))
              (fun ed hm => hno ed (by simp [hm]))
          | cons i tl =>
            simp only [hg]
            have hc0 := hno e0 (by simp)
            have hi : i = id := by
              simp [conflictB, hg, hcu.1, hcu.2, hv0] at hc0
              exact hc0
            rw [if_pos hi]
            exact ih _ (fun ed hm => hlk ed (by simp [hm]))
              (fun ed hm => hno ed (by simp [hm]))
      · rw [if_neg hcu]
        exact ih _ (fun ed hm => hlk ed (by simp [hm])) (fun ed hm => hno ed (by simp [hm]))

/-- C4: for every create or save whose computed index edits would insert a
unique-index entry at a key already mapped to a different entity's id, the
operation fails with the unique-conflict error naming the ent type and the
index, before anything is committed to the shared map (the scope holding
the partial edits is discarded, so stored entities remain readable and
unaffected); when no such edit exists — in particular when the existing id
at the key is the writing entity's own id — the write path succeeds. -/
theorem uniqueConflict_checked (s : EntStorage) (e : EntState)
    (id version cf : Nat) (prev : Option EntData)
    (edits : List StorageIndexEdit)
    (hprev : versionCheck s.m e id cf = .ok prev)
    (hedits : ComputeIndexEdits (some (memIndexGet s.m)) prev (some e.data) id cf =
      .ok edits)
    (hlk : ∀ ed ∈ edits,
      isOkB (memIndexGet s.m e.data.type.name ed.index.name ed.key) = true) :
    ((∃ ed ∈ edits, conflictB s.m e.data.type.name id ed = true) →
      ∃ ed ∈ edits, conflictB s.m e.data.type.name id ed = true ∧
        putEnt s.m e id version cf =
          .error (.uniqueConflict e.data.type.name ed.index.name)) ∧
    ((∀ ed ∈ edits, conflictB s.m e.data.type.name id ed = false) →
      ∃ m', putEnt s.m e id version cf = .ok m') := by
  constructor
  · intro hex
    obtain ⟨ed, hm, hc, happ⟩ :=
      applyEdits_conflict ([] : Scope) hlk hex
    refine ⟨ed, hm, hc, ?_⟩
    unfold putEnt
    simp only [hprev, hedits, happ]
  · intro hno
    obtain ⟨ov', happ⟩ := applyEdits_ok ([] : Scope) hlk hno
    refine ⟨storePut (applyToOuter s.m ov') (entKey e.data.type.name id)
      (.payload id version e.data.vals), ?_⟩
    unfold putEnt
    simp only [hprev, hedits, happ]

def sU : EntStorage :=
  ⟨1, [(entKey "U" 1, .payload 1 1 [.str [97]]),
       (indexKeyStr "U" "byE" [97], .idset [1])]⟩

def eU2 : EntState := ⟨0, 0, 1, ⟨typeU, [.str [97]]⟩⟩

/-- Witness for C4: creating a second `U` ent with the already-taken
unique value `"a"` fails with the conflict naming type `U` and index
`byE`. -/
theorem uniqueConflict_checked_witness :
    putEnt sU.m eU2 2 1 1 = .error (.uniqueConflict "U" "byE") := by
  obtain ⟨ed, hm, -, happ⟩ :=
    (uniqueConflict_checked sU eU2 2 1 1 none [⟨idxU, [97], [2], false⟩]
      (by decide) (by decide) (by decide)).1
      ⟨⟨idxU, [97], [2], false⟩, by decide, by decide⟩
  rw [List.mem_singleton] at hm
  subst hm
  exact happ

end Ent
